import Mathlib

/-!
Verification of the cui_gaming terminal rendering engine.

Shallow embedding of the core components:
- the unit segmenter (`src/drawable_unit.rs`),
- the layered canvas (`src/canvas.rs`),
- the world-to-canvas coordinate projector (`src/world_canvas.rs`),
- the message log (`src/message_buffer.rs`).

Machine integers (`usize`, `isize`) are modelled by `Nat` and `Int`;
no claim below exercises values anywhere near the 64-bit range, so
wraparound is irrelevant to every statement proved here.
Rust panics are modelled by `Option`-valued operations returning `none`.
-/

/-- The color enumeration (`console::Color`, re-exported as `UnitColor`):
a closed set of 8 named colors. -/
inductive UnitColor where
  | black | blue | cyan | green | magenta | red | white | yellow
deriving DecidableEq

/-- An input character tagged with its console display width, which the
segmenter's precondition requires to be exactly 1 (half) or 2 (full).
This encodes the domain "strings all of whose characters have width 1 or 2"
over which the segmenter claims quantify. -/
inductive Glyph where
  | half (c : Char)
  | full (c : Char)
deriving DecidableEq

/-- The character carried by a glyph. -/
def glyphChar : Glyph → Char
  | .half c => c
  | .full c => c

/-- Whether a glyph is half-width. -/
def isHalf : Glyph → Bool
  | .half _ => true
  | .full _ => false

/-- `DrawableUnit` (`src/drawable_unit.rs`): one full-width glyph
(`right = none`) or two half-width glyphs packed into one square. -/
structure DrawableUnit where
  left : Char
  right : Option Char
  color : UnitColor
deriving DecidableEq

/-- `DrawableUnit::from_single_full_char`. -/
def from_single_full_char (c : Char) (color : UnitColor) : DrawableUnit :=
  ⟨c, none, color⟩

/-- `DrawableUnit::from_double_half_char`. -/
def from_double_half_char (l r : Char) (color : UnitColor) : DrawableUnit :=
  ⟨l, some r, color⟩

/-- The loop body of `DrawableUnit::create_units_from`, with the `previous`
pending half-width character made an explicit accumulator; the final
`if let Some(c) = previous` flush is the `[]` case. -/
def create_units_go (color : UnitColor) : Option Char → List Glyph → List DrawableUnit
  | none, [] => []
  | some p, [] => [from_double_half_char p ' ' color]
  | none, .half c :: rest => create_units_go color (some c) rest
  | some p, .half c :: rest =>
      from_double_half_char p c color :: create_units_go color none rest
  | none, .full c :: rest =>
      from_single_full_char c color :: create_units_go color none rest
  | some p, .full c :: rest =>
      from_double_half_char p ' ' color :: from_single_full_char c color ::
        create_units_go color none rest

/-- `DrawableUnit::create_units_from` (`src/drawable_unit.rs` lines 57-98):
scan left to right starting with no pending half-width character. -/
def create_units_from (s : List Glyph) (color : UnitColor) : List DrawableUnit :=
  create_units_go color none s

/-- The character sequence a unit list renders to (the glyphs emitted by
`DrawableUnit::write_to`, ignoring color; this is what the repository's
`get_string_without_style` test helper computes). -/
def rendered_chars (units : List DrawableUnit) : List Char :=
  units.flatMap fun u => u.left :: u.right.toList

@[simp] theorem rendered_chars_nil : rendered_chars [] = [] := rfl

@[simp] theorem rendered_chars_cons (u : DrawableUnit) (l : List DrawableUnit) :
    rendered_chars (u :: l) = u.left :: (u.right.toList ++ rendered_chars l) := by
  simp [rendered_chars]

/-- The characters of the input glyph sequence. -/
def input_chars (s : List Glyph) : List Char :=
  s.map glyphChar

/-- The number of half-width characters in the input. -/
def half_width_count (s : List Glyph) : Nat :=
  s.countP isHalf

/-- The input text with one padding space inserted immediately after each
maximal consecutive run of half-width characters of odd length.  This is the
specification-level description of what the segmenter renders;
`create_units_from` is proved to refine it. -/
def pad_runs : List Glyph → List Char
  | [] => []
  | .full c :: rest => c :: pad_runs rest
  | .half c :: rest =>
      let run := rest.takeWhile isHalf
      (c :: run.map glyphChar) ++
        (if (run.length + 1) % 2 = 1 then [' '] else []) ++
        pad_runs (rest.dropWhile isHalf)
termination_by l => l.length
decreasing_by
  all_goals simp only [List.length_cons, Nat.lt_succ_iff]
  · exact Nat.le_refl _
  · exact ((List.dropWhile_suffix isHalf).sublist).length_le

@[simp] theorem pad_runs_nil : pad_runs [] = [] := by
  rw [pad_runs.eq_def]

@[simp] theorem pad_runs_full (c : Char) (rest : List Glyph) :
    pad_runs (Glyph.full c :: rest) = c :: pad_runs rest := by
  rw [pad_runs.eq_def]

theorem pad_runs_half_eq (c : Char) (rest : List Glyph) :
    pad_runs (Glyph.half c :: rest) =
      (c :: (rest.takeWhile isHalf).map glyphChar) ++
        (if ((rest.takeWhile isHalf).length + 1) % 2 = 1 then [' '] else []) ++
        pad_runs (rest.dropWhile isHalf) := by
  rw [pad_runs.eq_def]

/-- The rendered text when one half-width character `p` is already pending:
`p` heads the current half-width run. -/
def pad_runs_pending (p : Char) (s : List Glyph) : List Char :=
  let run := s.takeWhile isHalf
  (p :: run.map glyphChar) ++
    (if (run.length + 1) % 2 = 1 then [' '] else []) ++
    pad_runs (s.dropWhile isHalf)

theorem pad_runs_pending_half (p c : Char) (rest : List Glyph) :
    pad_runs_pending p (Glyph.half c :: rest) = p :: c :: pad_runs rest := by
  cases rest with
  | nil => simp [pad_runs_pending, List.takeWhile, List.dropWhile, isHalf, glyphChar]
  | cons g rest' =>
    cases g with
    | half d =>
      have hmod : ((rest'.takeWhile isHalf).length + 1 + 1 + 1) % 2 =
          ((rest'.takeWhile isHalf).length + 1) % 2 := by omega
      simp only [pad_runs_pending, pad_runs_half_eq, List.takeWhile_cons,
        List.dropWhile_cons, isHalf, if_true, List.map_cons, List.length_cons, glyphChar]
      rw [hmod]
      simp
    | full d =>
      simp [pad_runs_pending, pad_runs_half_eq, List.takeWhile_cons,
        List.dropWhile_cons, isHalf, glyphChar]

theorem create_units_go_spec (color : UnitColor) (s : List Glyph) :
    (∀ p, rendered_chars (create_units_go color (some p) s) = pad_runs_pending p s) ∧
      rendered_chars (create_units_go color none s) = pad_runs s := by
  induction s with
  | nil =>
    constructor
    · intro p
      simp [create_units_go, pad_runs_pending, from_double_half_char]
    · simp [create_units_go]
  | cons g rest ih =>
    obtain ⟨ihsome, ihnone⟩ := ih
    cases g with
    | half c =>
      constructor
      · intro p
        rw [pad_runs_pending_half]
        simp [create_units_go, from_double_half_char, ihnone]
      · show rendered_chars (create_units_go color (some c) rest) = _
        rw [ihsome c]
        simp [pad_runs_pending, pad_runs_half_eq]
    | full c =>
      constructor
      · intro p
        simp [create_units_go, from_double_half_char, from_single_full_char,
          pad_runs_pending, List.takeWhile_cons, List.dropWhile_cons,
          isHalf, ihnone]
      · simp [create_units_go, from_single_full_char, ihnone]

/-- C1 (counterexample): for the input "aあ" — one half-width character (an
odd count) followed by a full-width one — the rendered text is "a あ": the
padding space is inserted in the middle, so the concatenated glyphs differ
from the input and the rendered text does not end with a trailing space. -/
theorem c1_counterexample :
    rendered_chars (create_units_from [Glyph.half 'a', Glyph.full 'あ'] UnitColor.white) ≠
        input_chars [Glyph.half 'a', Glyph.full 'あ'] ∧
      half_width_count [Glyph.half 'a', Glyph.full 'あ'] % 2 = 1 ∧
      (rendered_chars
          (create_units_from [Glyph.half 'a', Glyph.full 'あ'] UnitColor.white)).getLast? ≠
        some ' ' := by
  decide

/-- C1 (amended): for every input of width-1/width-2 characters, the text
rendered by `create_units_from` equals the input text with exactly one
padding space inserted immediately after each maximal consecutive run of
half-width characters of odd length (`pad_runs`); in particular the result
ends with a trailing padding space exactly when the input ends in an
odd-length half-width run. -/
theorem c1_amended (s : List Glyph) (color : UnitColor) :
    rendered_chars (create_units_from s color) = pad_runs s :=
  (create_units_go_spec color s).2

/-- Modelled from the spec: the external geometry collaborator's 2-D integer
pair type (`data_structure::Pair`) with component-wise arithmetic. -/
structure Pair (α : Type) where
  x : α
  y : α
deriving DecidableEq

instance [Add α] : Add (Pair α) := ⟨fun a b => ⟨a.x + b.x, a.y + b.y⟩⟩

instance [Sub α] : Sub (Pair α) := ⟨fun a b => ⟨a.x - b.x, a.y - b.y⟩⟩

@[simp] theorem Pair.add_def [Add α] (a b : Pair α) :
    a + b = ⟨a.x + b.x, a.y + b.y⟩ := rfl

@[simp] theorem Pair.sub_def [Sub α] (a b : Pair α) :
    a - b = ⟨a.x - b.x, a.y - b.y⟩ := rfl

/-- `CANVAS_WIDTH` (`src/canvas.rs`): 40 - 2 interior columns. -/
def CANVAS_WIDTH : Nat := 40 - 2

/-- `CANVAS_HEIGHT` (`src/canvas.rs`). -/
def CANVAS_HEIGHT : Nat := 30

/-- `CanvasUnit` (`src/canvas.rs`): the information held at each canvas
point, a drawable unit together with its layer. -/
structure CanvasUnit (L : Type) where
  drawable_unit : DrawableUnit
  layer : L
deriving DecidableEq

/-- `Canvas` (`src/canvas.rs`): the fixed-size grid of optional
(unit, layer) slots, modelled as a total function on coordinates. -/
def Canvas (L : Type) := Pair Nat → Option (CanvasUnit L)

/-- `Canvas::empty_canvas`. -/
def empty_canvas (L : Type) : Canvas L := fun _ => none

/-- `Canvas::is_drawable_at`: the point is strictly inside
`[0, CANVAS_WIDTH) × [0, CANVAS_HEIGHT)` (coordinates are `usize`, hence
already non-negative). -/
def is_drawable_at (position : Pair Nat) : Bool :=
  decide (position.x < CANVAS_WIDTH) && decide (position.y < CANVAS_HEIGHT)

/-- `Canvas::draw_unit` (`src/canvas.rs` lines 49-73): store into an empty
slot unconditionally; overwrite an occupied slot iff the new layer is
greater than or equal to the stored one, else leave the slot untouched. -/
def draw_unit [LinearOrder L] (canvas : Canvas L) (drawable_unit : DrawableUnit)
    (position : Pair Nat) (layer : L) : Canvas L :=
  fun q =>
    if q = position then
      match canvas position with
      | some l => if layer ≥ l.layer then some ⟨drawable_unit, layer⟩ else some l
      | none => some ⟨drawable_unit, layer⟩
    else canvas q

/-- C2: drawing into an empty slot always stores the given (cell, layer);
after two successive draws to the same initially-empty slot with layers `l1`
then `l2`, the slot holds the second draw's content and layer iff `l2 ≥ l1`,
and otherwise retains the first draw's content. -/
theorem c2_layer_overwrite {L : Type} [LinearOrder L] (canvas : Canvas L)
    (pos : Pair Nat) (u1 u2 : DrawableUnit) (l1 l2 : L)
    (hempty : canvas pos = none) :
    draw_unit canvas u1 pos l1 pos = some ⟨u1, l1⟩ ∧
      (draw_unit (draw_unit canvas u1 pos l1) u2 pos l2 pos = some ⟨u2, l2⟩ ↔ l2 ≥ l1) ∧
      (¬ l2 ≥ l1 → draw_unit (draw_unit canvas u1 pos l1) u2 pos l2 pos = some ⟨u1, l1⟩) := by
  have h1 : draw_unit canvas u1 pos l1 pos = some ⟨u1, l1⟩ := by
    simp [draw_unit, hempty]
  refine ⟨h1, ?_, ?_⟩
  · constructor
    · intro h
      by_contra hge
      have hnle : ¬ l1 ≤ l2 := fun hc => hge hc
      simp [draw_unit, hempty, hnle] at h
      have hlt : l2 < l1 := not_le.mp hnle
      exact (ne_of_gt hlt) h.2
    · intro h
      have hle : l1 ≤ l2 := h
      simp [draw_unit, hempty, hle]
  · intro h
    have hnle : ¬ l1 ≤ l2 := fun hc => h hc
    simp [draw_unit, hempty, hnle]

/-- C2 (witness): with natural-number layers, a concrete empty slot, a first
draw at layer 1 and a second at layer 0, the slot keeps the layer-1 content. -/
theorem c2_witness :
    draw_unit (empty_canvas Nat) (from_double_half_char 'a' 'b' UnitColor.white)
        ⟨0, 0⟩ 1 ⟨0, 0⟩ =
      some ⟨from_double_half_char 'a' 'b' UnitColor.white, 1⟩ ∧
      ¬ ((0 : Nat) ≥ 1) ∧
      draw_unit
          (draw_unit (empty_canvas Nat) (from_double_half_char 'a' 'b' UnitColor.white)
            ⟨0, 0⟩ 1)
          (from_double_half_char 'c' 'd' UnitColor.red) ⟨0, 0⟩ 0 ⟨0, 0⟩ =
        some ⟨from_double_half_char 'a' 'b' UnitColor.white, 1⟩ := by
  have h := c2_layer_overwrite (empty_canvas Nat)
    ⟨0, 0⟩ (from_double_half_char 'a' 'b' UnitColor.white)
    (from_double_half_char 'c' 'd' UnitColor.red) 1 0 rfl
  exact ⟨h.1, by decide, h.2.2 (by decide)⟩

/-- Modelled from the spec: the geometry collaborator's checked narrowing
cast from the signed to the unsigned coordinate domain
(`Pair::try_cast::<usize>`), failing when a component would be negative. -/
def try_cast_to_nat (p : Pair Int) : Option (Pair Nat) :=
  if 0 ≤ p.x ∧ 0 ≤ p.y then some ⟨p.x.toNat, p.y.toNat⟩ else none

/-- The cast of a canvas coordinate into the signed world domain
(`reference_canvas_position.try_cast()`); total for coordinates far below
the 63-bit boundary, which every canvas coordinate is. -/
def cast_to_int (p : Pair Nat) : Pair Int :=
  ⟨(p.x : Int), (p.y : Int)⟩

/-- `Reference` (`src/world_canvas.rs`): an anchor canvas coordinate paired
with an anchor world coordinate. -/
structure Reference where
  reference_canvas_position : Pair Nat
  reference_world_position : Pair Int
deriving DecidableEq

/-- `Reference::canvas_position_of` (`src/world_canvas.rs` lines 40-58):
offset the world position by the reference, shift by the canvas anchor,
cast back to the unsigned domain (failing casts yield `none`), and bounds
check against the canvas size. -/
def canvas_position_of (r : Reference) (world_position : Pair Int) :
    Option (Pair Nat) :=
  let offset := world_position - r.reference_world_position
  match try_cast_to_nat (offset + cast_to_int r.reference_canvas_position) with
  | none => none
  | some canvas_position =>
      if is_drawable_at canvas_position then some canvas_position else none

/-- `WorldCanvas::draw_unit` (`src/world_canvas.rs` lines 68-81): draw only
when the projection succeeds; a failed projection draws nothing. -/
def world_draw_unit [LinearOrder L] (canvas : Canvas L) (reference : Reference)
    (drawable_unit : DrawableUnit) (world_position : Pair Int) (layer : L) : Canvas L :=
  match canvas_position_of reference world_position with
  | some canvas_position => draw_unit canvas drawable_unit canvas_position layer
  | none => canvas

/-- C8 (counterexample): a Reference whose canvas anchor (38, 0) lies outside
the 38-column canvas projects its own reference world position to `none`,
not to `some` of the anchor. -/
theorem c8_counterexample :
    canvas_position_of ⟨⟨38, 0⟩, ⟨0, 0⟩⟩ (⟨0, 0⟩ : Pair Int) ≠
      some (⟨38, 0⟩ : Pair Nat) := by
  decide

/-- C8 (amended): for every Reference whose canvas anchor lies strictly
inside the canvas bounds, projecting the reference world position yields
exactly the reference canvas position; translating the world position by an
in-range delta D translates the result by D; and a world position offset by
at least the canvas size in some component yields `none`. -/
theorem c8_projection (rx ry : Nat) (wx wy : Int)
    (hx : rx < CANVAS_WIDTH) (hy : ry < CANVAS_HEIGHT) :
    canvas_position_of ⟨⟨rx, ry⟩, ⟨wx, wy⟩⟩ ⟨wx, wy⟩ = some ⟨rx, ry⟩ ∧
      (∀ dx dy : Int, 0 ≤ (rx : Int) + dx → (rx : Int) + dx < CANVAS_WIDTH →
        0 ≤ (ry : Int) + dy → (ry : Int) + dy < CANVAS_HEIGHT →
        canvas_position_of ⟨⟨rx, ry⟩, ⟨wx, wy⟩⟩ (⟨wx, wy⟩ + ⟨dx, dy⟩) =
          some ⟨((rx : Int) + dx).toNat, ((ry : Int) + dy).toNat⟩) ∧
      (∀ dx dy : Int, CANVAS_WIDTH ≤ dx.natAbs ∨ CANVAS_HEIGHT ≤ dy.natAbs →
        canvas_position_of ⟨⟨rx, ry⟩, ⟨wx, wy⟩⟩ (⟨wx, wy⟩ + ⟨dx, dy⟩) = none) := by
  refine ⟨?_, ?_, ?_⟩
  · simp [canvas_position_of, try_cast_to_nat, cast_to_int, is_drawable_at, hx, hy]
  · intro dx dy h1 h2 h3 h4
    simp only [canvas_position_of, try_cast_to_nat, cast_to_int, Pair.add_def, Pair.sub_def]
    have e1 : wx + dx - wx = dx := by ring
    have e2 : wy + dy - wy = dy := by ring
    rw [e1, e2]
    have hcast : 0 ≤ dx + (rx : Int) ∧ 0 ≤ dy + (ry : Int) := ⟨by omega, by omega⟩
    rw [if_pos hcast]
    have hdraw : is_drawable_at ⟨(dx + (rx : Int)).toNat, (dy + (ry : Int)).toNat⟩ = true := by
      simp only [is_drawable_at, Bool.and_eq_true, decide_eq_true_eq]
      constructor <;> omega
    simp only [hdraw, if_true, Option.some.injEq, Pair.mk.injEq]
    constructor <;> omega
  · intro dx dy hd
    simp only [canvas_position_of, try_cast_to_nat, cast_to_int, Pair.add_def, Pair.sub_def]
    have e1 : wx + dx - wx = dx := by ring
    have e2 : wy + dy - wy = dy := by ring
    rw [e1, e2]
    by_cases hcast : 0 ≤ dx + (rx : Int) ∧ 0 ≤ dy + (ry : Int)
    · rw [if_pos hcast]
      have hdraw : is_drawable_at ⟨(dx + (rx : Int)).toNat, (dy + (ry : Int)).toNat⟩ = false := by
        rw [Bool.eq_false_iff]
        simp only [ne_eq, is_drawable_at, Bool.and_eq_true, decide_eq_true_eq, not_and]
        intro hA hB
        rcases hd with h | h <;> omega
      simp only [hdraw, Bool.false_eq_true, if_false]
    · rw [if_neg hcast]

/-- C8 (witness): for the in-range reference of the repository's own test
(canvas anchor (10, 20), world anchor (-1, 5)), projection is the identity at
the anchor, the delta (10, 1) translates the result to (20, 21), and the
delta (-38, 0) — a full canvas width away — projects to `none`. -/
theorem c8_witness :
    canvas_position_of ⟨⟨10, 20⟩, ⟨-1, 5⟩⟩ (⟨-1, 5⟩ : Pair Int) =
        some (⟨10, 20⟩ : Pair Nat) ∧
      canvas_position_of ⟨⟨10, 20⟩, ⟨-1, 5⟩⟩ ((⟨-1, 5⟩ : Pair Int) + ⟨10, 1⟩) =
        some (⟨20, 21⟩ : Pair Nat) ∧
      canvas_position_of ⟨⟨10, 20⟩, ⟨-1, 5⟩⟩ ((⟨-1, 5⟩ : Pair Int) + ⟨-38, 0⟩) =
        none := by
  have h := c8_projection 10 20 (-1) 5 (by decide) (by decide)
  refine ⟨h.1, ?_, h.2.2 (-38) 0 (by decide)⟩
  have h2 := h.2.1 10 1 (by decide) (by decide) (by decide) (by decide)
  exact h2.trans (by decide)

/-- C9: whenever projection of a world position fails, the world-level
`draw_unit` leaves the underlying canvas entirely unchanged (its embedding
is total: there is no error outcome). -/
theorem c9_no_draw_on_failed_projection {L : Type} [LinearOrder L]
    (canvas : Canvas L) (reference : Reference) (u : DrawableUnit)
    (world_position : Pair Int) (layer : L)
    (h : canvas_position_of reference world_position = none) :
    world_draw_unit canvas reference u world_position layer = canvas := by
  simp [world_draw_unit, h]

/-- C9 (witness): drawing at world position (-1, 0) through the origin
reference leaves a concrete empty canvas unchanged. -/
theorem c9_witness :
    world_draw_unit (empty_canvas Nat) ⟨⟨0, 0⟩, ⟨0, 0⟩⟩
        (from_double_half_char 'a' 'b' UnitColor.white) (⟨-1, 0⟩ : Pair Int) 3 =
      empty_canvas Nat :=
  c9_no_draw_on_failed_projection (empty_canvas Nat) ⟨⟨0, 0⟩, ⟨0, 0⟩⟩
    (from_double_half_char 'a' 'b' UnitColor.white) ⟨-1, 0⟩ 3 (by decide)

/-- `MessageLine` (`src/message_buffer.rs`): a line of units, a growable
flag, and the per-line capacity (`max_message_length`). -/
structure MessageLine where
  units : List DrawableUnit
  is_growable : Bool
  max_message_length : Nat
deriving DecidableEq

/-- `MessageLine::empty_growable_line`. -/
def empty_growable_line (max_message_length : Nat) : MessageLine :=
  ⟨[], true, max_message_length⟩

/-- `MessageLine::empty_ungrowable_line`: note that its capacity is 0. -/
def empty_ungrowable_line : MessageLine :=
  ⟨[], false, 0⟩

/-- One iteration of the loop in `MessageLine::append_message`: when the
line is at capacity, `pop_front().unwrap()` panics (`none`) on an empty
deque, otherwise evicts the front cell; then the new cell is pushed back. -/
def append_cell (line : MessageLine) (u : DrawableUnit) : Option MessageLine :=
  if line.units.length = line.max_message_length then
    match line.units with
    | [] => none
    | _ :: rest => some { line with units := rest ++ [u] }
  else some { line with units := line.units ++ [u] }

/-- `MessageLine::append_message` (`src/message_buffer.rs` lines 68-76):
`assert!(is_growable)` then push each unit through the ring-buffer step. -/
def append_message (line : MessageLine) (units : List DrawableUnit) :
    Option MessageLine :=
  if line.is_growable then units.foldlM append_cell line else none

/-- `MessageBuffer` (`src/message_buffer.rs`). -/
structure MessageBuffer where
  lines : List MessageLine
  max_line_count : Nat
  max_message_length : Nat
  border_unit : DrawableUnit
deriving DecidableEq

/-- `MessageBuffer::new`. -/
def MessageBuffer.new (max_line_count max_message_length : Nat)
    (border_unit : DrawableUnit) : MessageBuffer :=
  ⟨[], max_line_count, max_message_length, border_unit⟩

/-- `MessageBuffer::add_new_message_line` (`src/message_buffer.rs` lines
249-254): evict the oldest (front) line when at `max_line_count`, then push
the new line at the back. -/
def add_new_message_line (buf : MessageBuffer) (new_line : MessageLine) :
    MessageBuffer :=
  { buf with
    lines := (if buf.lines.length = buf.max_line_count then buf.lines.drop 1
              else buf.lines) ++ [new_line] }

/-- `MessageBuffer::add_text` (`src/message_buffer.rs` lines 114-134):
append the segmented units to the last line when it is growable, otherwise
append them to a fresh growable line added through `add_new_message_line`. -/
def add_text (buf : MessageBuffer) (text : List Glyph) (color : UnitColor) :
    Option MessageBuffer :=
  let units := create_units_from text color
  match buf.lines.getLast? with
  | some last_line =>
      if last_line.is_growable then
        (append_message last_line units).map
          (fun l => { buf with lines := buf.lines.dropLast ++ [l] })
      else
        (append_message (empty_growable_line buf.max_message_length) units).map
          (add_new_message_line buf)
  | none =>
      (append_message (empty_growable_line buf.max_message_length) units).map
        (add_new_message_line buf)

/-- `MessageBuffer::add_newline` (`src/message_buffer.rs` lines 137-150):
seal a growable last line in place, else append a fresh sealed empty line. -/
def add_newline (buf : MessageBuffer) : MessageBuffer :=
  match buf.lines.getLast? with
  | some last_line =>
      if last_line.is_growable then
        { buf with
          lines := buf.lines.dropLast ++ [{ last_line with is_growable := false }] }
      else add_new_message_line buf empty_ungrowable_line
  | none => add_new_message_line buf empty_ungrowable_line

/-- A public mutation of the message buffer. -/
inductive MsgOp where
  | text (s : List Glyph) (color : UnitColor)
  | newline
deriving DecidableEq

/-- Apply one mutation; `none` models a panic. -/
def apply_op (buf : MessageBuffer) : MsgOp → Option MessageBuffer
  | .text s color => add_text buf s color
  | .newline => some (add_newline buf)

/-- Apply a sequence of mutations from left to right. -/
def apply_ops (buf : MessageBuffer) (ops : List MsgOp) : Option MessageBuffer :=
  ops.foldlM apply_op buf

theorem append_cell_props (line : MessageLine) (u : DrawableUnit)
    (l' : MessageLine) (h : append_cell line u = some l') :
    l'.max_message_length = line.max_message_length ∧
      l'.is_growable = line.is_growable ∧
      (line.units.length ≤ line.max_message_length →
        l'.units.length ≤ line.max_message_length) := by
  obtain ⟨us, g, m⟩ := line
  simp only [append_cell] at h
  by_cases hlen : us.length = m
  · rw [if_pos hlen] at h
    cases us with
    | nil => simp at h
    | cons a rest =>
      simp only [Option.some.injEq] at h
      subst h
      refine ⟨rfl, rfl, fun _ => ?_⟩
      simp only [List.length_append, List.length_cons, List.length_nil]
      simp only [List.length_cons] at hlen
      omega
  · rw [if_neg hlen] at h
    simp only [Option.some.injEq] at h
    subst h
    refine ⟨rfl, rfl, fun hle => ?_⟩
    simp only at hle ⊢
    simp only [List.length_append, List.length_cons, List.length_nil] at hle ⊢
    omega

theorem foldlM_append_cell_props (us : List DrawableUnit) :
    ∀ (line l' : MessageLine), us.foldlM append_cell line = some l' →
      l'.max_message_length = line.max_message_length ∧
        l'.is_growable = line.is_growable ∧
        (line.units.length ≤ line.max_message_length →
          l'.units.length ≤ line.max_message_length) := by
  induction us with
  | nil =>
    intro line l' h
    have h' : line = l' := by simpa using h
    subst h'
    exact ⟨rfl, rfl, fun hle => hle⟩
  | cons u rest ih =>
    intro line l' h
    simp only [List.foldlM_cons] at h
    cases hc : append_cell line u with
    | none =>
      rw [hc] at h
      simp only [Option.bind_eq_bind, Option.none_bind] at h
      exact absurd h (by simp)
    | some l1 =>
      rw [hc] at h
      simp only [Option.bind_eq_bind, Option.some_bind] at h
      obtain ⟨p1, p2, p3⟩ := append_cell_props line u l1 hc
      obtain ⟨q1, q2, q3⟩ := ih l1 l' h
      refine ⟨q1.trans p1, q2.trans p2, fun hle => ?_⟩
      have h3 : l'.units.length ≤ l1.max_message_length := by
        apply q3
        rw [p1]
        exact p3 hle
      rw [p1] at h3
      exact h3

theorem append_message_props (line : MessageLine) (us : List DrawableUnit)
    (l' : MessageLine) (h : append_message line us = some l') :
    l'.max_message_length = line.max_message_length ∧
      l'.is_growable = line.is_growable ∧
      (line.units.length ≤ line.max_message_length →
        l'.units.length ≤ line.max_message_length) := by
  by_cases hg : line.is_growable
  · rw [append_message, if_pos hg] at h
    exact foldlM_append_cell_props us line l' h
  · rw [append_message, if_neg hg] at h
    exact absurd h (by simp)

theorem append_cell_isSome (line : MessageLine) (u : DrawableUnit)
    (hm : 1 ≤ line.max_message_length) : (append_cell line u).isSome := by
  obtain ⟨us, g, m⟩ := line
  simp only at hm
  simp only [append_cell]
  by_cases hlen : us.length = m
  · rw [if_pos hlen]
    cases us with
    | nil => simp at hlen; omega
    | cons a rest => simp
  · rw [if_neg hlen]
    simp

theorem foldlM_append_cell_isSome (us : List DrawableUnit) :
    ∀ line : MessageLine, 1 ≤ line.max_message_length →
      (us.foldlM append_cell line).isSome := by
  induction us with
  | nil =>
    intro line hm
    simp
  | cons u rest ih =>
    intro line hm
    simp only [List.foldlM_cons]
    cases hc : append_cell line u with
    | none =>
      have := append_cell_isSome line u hm
      rw [hc] at this
      simp at this
    | some l1 =>
      simp only [Option.bind_eq_bind, Option.some_bind]
      apply ih
      have := (append_cell_props line u l1 hc).1
      omega

theorem append_message_isSome (line : MessageLine) (us : List DrawableUnit)
    (hg : line.is_growable = true) (hm : 1 ≤ line.max_message_length) :
    (append_message line us).isSome := by
  rw [append_message, if_pos (by rw [hg])]
  exact foldlM_append_cell_isSome us line hm

theorem append_message_capacity_zero (u : DrawableUnit) (us : List DrawableUnit) :
    append_message (empty_growable_line 0) (u :: us) = none := by
  simp [append_message, empty_growable_line, List.foldlM_cons, append_cell]

/-- The state invariant of a message buffer reachable from `new`:
the line count respects `max_line_count` (whenever that bound is at least
one), every stored line respects its own capacity which never exceeds the
buffer's `max_message_length` and equals it for growable lines, and every
line except the last is sealed. -/
def buffer_inv (buf : MessageBuffer) : Prop :=
  (1 ≤ buf.max_line_count → buf.lines.length ≤ buf.max_line_count) ∧
  (∀ l ∈ buf.lines,
    l.units.length ≤ l.max_message_length ∧
    l.max_message_length ≤ buf.max_message_length ∧
    (l.is_growable = true → l.max_message_length = buf.max_message_length)) ∧
  (∀ l ∈ buf.lines.dropLast, l.is_growable = false)

theorem buffer_inv_new (max_line_count max_message_length : Nat)
    (border_unit : DrawableUnit) :
    buffer_inv (MessageBuffer.new max_line_count max_message_length border_unit) := by
  refine ⟨?_, ?_, ?_⟩ <;> simp [MessageBuffer.new, buffer_inv]

theorem add_new_message_line_length (buf : MessageBuffer) (nl : MessageLine)
    (hc : 1 ≤ buf.max_line_count) (hlen : buf.lines.length ≤ buf.max_line_count) :
    (add_new_message_line buf nl).lines.length ≤ buf.max_line_count := by
  simp only [add_new_message_line]
  by_cases h : buf.lines.length = buf.max_line_count
  · rw [if_pos h]
    simp only [List.length_append, List.length_drop, List.length_cons, List.length_nil]
    omega
  · rw [if_neg h]
    simp only [List.length_append, List.length_cons, List.length_nil]
    omega

theorem add_new_message_line_mem (buf : MessageBuffer) (nl : MessageLine)
    (l : MessageLine) (h : l ∈ (add_new_message_line buf nl).lines) :
    l ∈ buf.lines ∨ l = nl := by
  simp only [add_new_message_line] at h
  rcases List.mem_append.mp h with h1 | h1
  · left
    by_cases hc : buf.lines.length = buf.max_line_count
    · rw [if_pos hc] at h1
      exact List.drop_subset _ _ h1
    · rw [if_neg hc] at h1
      exact h1
  · right
    simpa using h1

theorem add_new_message_line_dropLast (buf : MessageBuffer) (nl : MessageLine) :
    (add_new_message_line buf nl).lines.dropLast =
      (if buf.lines.length = buf.max_line_count then buf.lines.drop 1
       else buf.lines) := by
  simp only [add_new_message_line]
  exact List.dropLast_concat

theorem mem_split_last (l : List MessageLine) (a : MessageLine)
    (h : l.getLast? = some a) : ∀ x ∈ l, x ∈ l.dropLast ∨ x = a := by
  obtain ⟨front, rfl⟩ := List.getLast?_eq_some_iff.mp h
  intro x hx
  rcases List.mem_append.mp hx with h1 | h1
  · left
    simpa [List.dropLast_concat] using h1
  · right
    simpa using h1

theorem length_dropLast_concat_eq (l : List MessageLine) (x : MessageLine)
    (h : l ≠ []) : (l.dropLast ++ [x]).length = l.length := by
  have h1 : 1 ≤ l.length := List.length_pos.mpr h
  simp only [List.length_append, List.length_dropLast, List.length_cons,
    List.length_nil]
  omega

theorem getLast?_mem_of_eq (l : List MessageLine) (a : MessageLine)
    (h : l.getLast? = some a) : a ∈ l := by
  obtain ⟨front, rfl⟩ := List.getLast?_eq_some_iff.mp h
  simp

theorem add_new_message_line_inv (buf : MessageBuffer) (l' : MessageLine)
    (hinv : buffer_inv buf)
    (hallsealed : ∀ l ∈ buf.lines, l.is_growable = false)
    (h1 : l'.units.length ≤ l'.max_message_length)
    (h2 : l'.max_message_length ≤ buf.max_message_length)
    (h3 : l'.is_growable = true → l'.max_message_length = buf.max_message_length) :
    buffer_inv (add_new_message_line buf l') := by
  obtain ⟨hcount, hper, hseal⟩ := hinv
  refine ⟨?_, ?_, ?_⟩
  · intro hc
    exact add_new_message_line_length buf l' hc (hcount hc)
  · intro l hl
    rcases add_new_message_line_mem buf l' l hl with hm | hm
    · exact hper l hm
    · subst hm
      exact ⟨h1, h2, h3⟩
  · intro l hl
    rw [add_new_message_line_dropLast] at hl
    apply hallsealed
    by_cases hcap : buf.lines.length = buf.max_line_count
    · rw [if_pos hcap] at hl
      exact List.drop_subset _ _ hl
    · rw [if_neg hcap] at hl
      exact hl

theorem modify_last_inv (buf : MessageBuffer) (last_line l' : MessageLine)
    (hinv : buffer_inv buf) (hlast : buf.lines.getLast? = some last_line)
    (h1 : l'.units.length ≤ l'.max_message_length)
    (h2 : l'.max_message_length ≤ buf.max_message_length)
    (h3 : l'.is_growable = true → l'.max_message_length = buf.max_message_length) :
    buffer_inv { buf with lines := buf.lines.dropLast ++ [l'] } := by
  obtain ⟨hcount, hper, hseal⟩ := hinv
  have hne : buf.lines ≠ [] := by
    intro hcontra
    rw [hcontra] at hlast
    simp at hlast
  refine ⟨?_, ?_, ?_⟩
  · intro hc
    show (buf.lines.dropLast ++ [l']).length ≤ buf.max_line_count
    rw [length_dropLast_concat_eq buf.lines l' hne]
    exact hcount hc
  · intro l hl
    rcases List.mem_append.mp hl with hm | hm
    · exact hper l (List.dropLast_subset _ hm)
    · have heq : l = l' := by simpa using hm
      subst heq
      exact ⟨h1, h2, h3⟩
  · show ∀ l ∈ (buf.lines.dropLast ++ [l']).dropLast, l.is_growable = false
    rw [List.dropLast_concat]
    exact hseal

theorem add_text_spec (buf buf' : MessageBuffer) (s : List Glyph)
    (color : UnitColor) (hinv : buffer_inv buf)
    (h : add_text buf s color = some buf') :
    buffer_inv buf' ∧ buf'.max_line_count = buf.max_line_count ∧
      buf'.max_message_length = buf.max_message_length := by
  simp only [add_text] at h
  split at h
  · rename_i last_line hlast
    by_cases hg : last_line.is_growable = true
    · rw [if_pos hg] at h
      obtain ⟨l', ha, hb⟩ := Option.map_eq_some'.mp h
      subst hb
      obtain ⟨p1, p2, p3⟩ := append_message_props _ _ _ ha
      have hmem : last_line ∈ buf.lines := getLast?_mem_of_eq _ _ hlast
      obtain ⟨q1, q2, q3⟩ := hinv.2.1 last_line hmem
      refine ⟨modify_last_inv buf last_line l' hinv hlast ?_ ?_ ?_, rfl, rfl⟩
      · rw [p1]
        exact p3 q1
      · rw [p1]
        exact q2
      · intro hg'
        rw [p1]
        apply q3
        rw [← p2]
        exact hg'
    · rw [if_neg hg] at h
      obtain ⟨l', ha, hb⟩ := Option.map_eq_some'.mp h
      subst hb
      obtain ⟨p1, p2, p3⟩ := append_message_props _ _ _ ha
      have hsealed : ∀ l ∈ buf.lines, l.is_growable = false := by
        intro l hl
        rcases mem_split_last _ _ hlast l hl with hm | hm
        · exact hinv.2.2 l hm
        · subst hm
          exact Bool.eq_false_iff.mpr hg
      refine ⟨add_new_message_line_inv buf l' hinv hsealed ?_ ?_ ?_, rfl, rfl⟩
      · rw [p1]
        apply p3
        simp [empty_growable_line]
      · rw [p1]
        simp [empty_growable_line]
      · intro hg'
        rw [p1]
        simp [empty_growable_line]
  · rename_i hlast
    have hempty : buf.lines = [] := List.getLast?_eq_none_iff.mp hlast
    obtain ⟨l', ha, hb⟩ := Option.map_eq_some'.mp h
    subst hb
    obtain ⟨p1, p2, p3⟩ := append_message_props _ _ _ ha
    have hsealed : ∀ l ∈ buf.lines, l.is_growable = false := by
      rw [hempty]
      simp
    refine ⟨add_new_message_line_inv buf l' hinv hsealed ?_ ?_ ?_, rfl, rfl⟩
    · rw [p1]
      apply p3
      simp [empty_growable_line]
    · rw [p1]
      simp [empty_growable_line]
    · intro hg'
      rw [p1]
      simp [empty_growable_line]

theorem add_newline_spec (buf : MessageBuffer) (hinv : buffer_inv buf) :
    buffer_inv (add_newline buf) ∧
      (add_newline buf).max_line_count = buf.max_line_count ∧
      (add_newline buf).max_message_length = buf.max_message_length := by
  rw [add_newline.eq_def]
  split
  · rename_i last_line hlast
    by_cases hg : last_line.is_growable = true
    · rw [if_pos hg]
      have hmem : last_line ∈ buf.lines := getLast?_mem_of_eq _ _ hlast
      obtain ⟨q1, q2, q3⟩ := hinv.2.1 last_line hmem
      refine ⟨modify_last_inv buf last_line _ hinv hlast q1 q2 ?_, rfl, rfl⟩
      intro hcontra
      simp at hcontra
    · rw [if_neg hg]
      have hsealed : ∀ l ∈ buf.lines, l.is_growable = false := by
        intro l hl
        rcases mem_split_last _ _ hlast l hl with hm | hm
        · exact hinv.2.2 l hm
        · subst hm
          exact Bool.eq_false_iff.mpr hg
      refine ⟨add_new_message_line_inv buf _ hinv hsealed ?_ ?_ ?_, rfl, rfl⟩
      · simp [empty_ungrowable_line]
      · simp [empty_ungrowable_line]
      · intro hcontra
        simp [empty_ungrowable_line] at hcontra
  · rename_i hlast
    have hempty : buf.lines = [] := List.getLast?_eq_none_iff.mp hlast
    have hsealed : ∀ l ∈ buf.lines, l.is_growable = false := by
      rw [hempty]
      simp
    refine ⟨add_new_message_line_inv buf _ hinv hsealed ?_ ?_ ?_, rfl, rfl⟩
    · simp [empty_ungrowable_line]
    · simp [empty_ungrowable_line]
    · intro hcontra
      simp [empty_ungrowable_line] at hcontra

theorem isSome_map_of_isSome {α β : Type} (f : α → β) (x : Option α)
    (h : x.isSome) : (x.map f).isSome := by
  cases x with
  | none => simp at h
  | some a => simp

theorem add_text_isSome (buf : MessageBuffer) (s : List Glyph)
    (color : UnitColor) (hinv : buffer_inv buf)
    (hmm : 1 ≤ buf.max_message_length) : (add_text buf s color).isSome := by
  simp only [add_text]
  split
  · rename_i last_line hlast
    by_cases hg : last_line.is_growable = true
    · rw [if_pos hg]
      apply isSome_map_of_isSome
      apply append_message_isSome _ _ hg
      have hmem : last_line ∈ buf.lines := getLast?_mem_of_eq _ _ hlast
      have := (hinv.2.1 last_line hmem).2.2 hg
      omega
    · rw [if_neg hg]
      apply isSome_map_of_isSome
      apply append_message_isSome _ _ rfl
      simpa [empty_growable_line] using hmm
  · rename_i hlast
    apply isSome_map_of_isSome
    apply append_message_isSome _ _ rfl
    simpa [empty_growable_line] using hmm

theorem apply_op_spec (buf buf' : MessageBuffer) (op : MsgOp)
    (hinv : buffer_inv buf) (h : apply_op buf op = some buf') :
    buffer_inv buf' ∧ buf'.max_line_count = buf.max_line_count ∧
      buf'.max_message_length = buf.max_message_length := by
  cases op with
  | text s color => exact add_text_spec buf buf' s color hinv h
  | newline =>
    simp only [apply_op, Option.some.injEq] at h
    subst h
    exact add_newline_spec buf hinv

theorem apply_op_isSome (buf : MessageBuffer) (op : MsgOp)
    (hinv : buffer_inv buf) (hmm : 1 ≤ buf.max_message_length) :
    (apply_op buf op).isSome := by
  cases op with
  | text s color => exact add_text_isSome buf s color hinv hmm
  | newline => simp [apply_op]

theorem apply_ops_spec (ops : List MsgOp) :
    ∀ buf buf' : MessageBuffer, apply_ops buf ops = some buf' →
      buffer_inv buf →
      buffer_inv buf' ∧ buf'.max_line_count = buf.max_line_count ∧
        buf'.max_message_length = buf.max_message_length := by
  induction ops with
  | nil =>
    intro buf buf' h hinv
    have h' : buf = buf' := by simpa [apply_ops] using h
    subst h'
    exact ⟨hinv, rfl, rfl⟩
  | cons op rest ih =>
    intro buf buf' h hinv
    simp only [apply_ops, List.foldlM_cons] at h
    cases hc : apply_op buf op with
    | none =>
      rw [hc] at h
      simp only [Option.bind_eq_bind, Option.none_bind] at h
      exact absurd h (by simp)
    | some buf1 =>
      rw [hc] at h
      simp only [Option.bind_eq_bind, Option.some_bind] at h
      obtain ⟨p1, p2, p3⟩ := apply_op_spec buf buf1 op hinv hc
      obtain ⟨q1, q2, q3⟩ := ih buf1 buf' h p1
      exact ⟨q1, q2.trans p2, q3.trans p3⟩

theorem apply_ops_isSome (ops : List MsgOp) :
    ∀ buf : MessageBuffer, buffer_inv buf → 1 ≤ buf.max_message_length →
      (apply_ops buf ops).isSome := by
  induction ops with
  | nil =>
    intro buf hinv hmm
    simp [apply_ops]
  | cons op rest ih =>
    intro buf hinv hmm
    simp only [apply_ops, List.foldlM_cons]
    cases hc : apply_op buf op with
    | none =>
      have := apply_op_isSome buf op hinv hmm
      rw [hc] at this
      simp at this
    | some buf1 =>
      simp only [Option.bind_eq_bind, Option.some_bind]
      obtain ⟨p1, p2, p3⟩ := apply_op_spec buf buf1 op hinv hc
      exact ih buf1 p1 (by omega)

/-- C5 (counterexample): with `max_line_count = 0`, a single `add_text` call
stores one line — `add_new_message_line` pops from the empty deque (a no-op)
and then pushes, so the stored line count 1 exceeds the bound 0. -/
theorem c5_counterexample :
    (apply_ops (MessageBuffer.new 0 5 (from_double_half_char ' ' ' ' UnitColor.white))
        [MsgOp.text [Glyph.half 'a', Glyph.half 'b'] UnitColor.white]).map
      (fun b => decide (b.lines.length ≤ b.max_line_count)) = some false := by
  decide

/-- C5 (amended): for every MessageBuffer built with `max_line_count ≥ 1`,
any sequence of add_text/add_newline calls that does not panic leaves at most
`max_line_count` lines, each holding at most `max_message_length` cells;
moreover at capacity the oldest line (respectively the oldest cell of a
full line) is evicted from the front first. -/
theorem c5_bounds :
    (∀ (mlc mml : Nat) (b : DrawableUnit) (ops : List MsgOp)
        (buf : MessageBuffer),
      1 ≤ mlc → apply_ops (MessageBuffer.new mlc mml b) ops = some buf →
      buf.lines.length ≤ mlc ∧ ∀ l ∈ buf.lines, l.units.length ≤ mml) ∧
    (∀ (buf : MessageBuffer) (nl : MessageLine),
      buf.lines.length = buf.max_line_count →
      (add_new_message_line buf nl).lines = buf.lines.drop 1 ++ [nl]) ∧
    (∀ (line : MessageLine) (u a : DrawableUnit) (rest : List DrawableUnit),
      line.units = a :: rest → line.units.length = line.max_message_length →
      append_cell line u = some { line with units := rest ++ [u] }) := by
  refine ⟨?_, ?_, ?_⟩
  · intro mlc mml b ops buf hmlc h
    obtain ⟨hinv, hcnt, hmm⟩ := apply_ops_spec ops _ buf h (buffer_inv_new mlc mml b)
    have hcnt' : buf.max_line_count = mlc := by
      simpa [MessageBuffer.new] using hcnt
    have hmm' : buf.max_message_length = mml := by
      simpa [MessageBuffer.new] using hmm
    constructor
    · have h1 := hinv.1 (by omega)
      omega
    · intro l hl
      obtain ⟨q1, q2, _⟩ := hinv.2.1 l hl
      omega
  · intro buf nl hcap
    simp [add_new_message_line, hcap]
  · intro line u a rest hu hlen
    simp [append_cell, hlen, hu]
    rw [hu] at hlen
    simpa using hlen

/-- C5 (witness): with `max_line_count = 2` and three sealed lines added in
sequence (the spec's own test), only the last two lines remain, within
bounds; the eviction equations hold at concrete full states. -/
theorem c5_witness :
    ((⟨[⟨[from_double_half_char 'b' ' ' UnitColor.white], false, 3⟩,
        ⟨[from_double_half_char 'c' ' ' UnitColor.white], false, 3⟩], 2, 3,
        from_double_half_char ' ' ' ' UnitColor.white⟩ :
          MessageBuffer).lines.length ≤ 2 ∧
      (∀ l ∈ (⟨[⟨[from_double_half_char 'b' ' ' UnitColor.white], false, 3⟩,
        ⟨[from_double_half_char 'c' ' ' UnitColor.white], false, 3⟩], 2, 3,
        from_double_half_char ' ' ' ' UnitColor.white⟩ :
          MessageBuffer).lines, l.units.length ≤ 3)) ∧
    (add_new_message_line
        ⟨[⟨[], false, 0⟩, ⟨[], false, 0⟩], 2, 3,
          from_double_half_char ' ' ' ' UnitColor.white⟩
        ⟨[], true, 3⟩).lines =
      [⟨[], false, 0⟩, ⟨[], true, 3⟩] ∧
    append_cell ⟨[from_double_half_char 'a' ' ' UnitColor.white], true, 1⟩
        (from_double_half_char 'x' 'y' UnitColor.red) =
      some ⟨[from_double_half_char 'x' 'y' UnitColor.red], true, 1⟩ := by
  refine ⟨?_, ?_, ?_⟩
  · exact c5_bounds.1 2 3 (from_double_half_char ' ' ' ' UnitColor.white)
      [MsgOp.text [Glyph.half 'a'] UnitColor.white, MsgOp.newline,
       MsgOp.text [Glyph.half 'b'] UnitColor.white, MsgOp.newline,
       MsgOp.text [Glyph.half 'c'] UnitColor.white, MsgOp.newline]
      _ (by decide) (by decide)
  · exact (c5_bounds.2.1 _ _ (by decide)).trans (by decide)
  · exact (c5_bounds.2.2 _ (from_double_half_char 'x' 'y' UnitColor.red)
      (from_double_half_char 'a' ' ' UnitColor.white) [] rfl (by decide)).trans
      (by decide)

/-- C6: in every buffer reachable from the empty initial state by add_text
and add_newline calls, every stored line except the last is sealed, so at
most one line — the last — can be growable. -/
theorem c6_growable_only_last (mlc mml : Nat) (b : DrawableUnit)
    (ops : List MsgOp) (buf : MessageBuffer)
    (h : apply_ops (MessageBuffer.new mlc mml b) ops = some buf) :
    ∀ l ∈ buf.lines.dropLast, l.is_growable = false :=
  (apply_ops_spec ops _ buf h (buffer_inv_new mlc mml b)).1.2.2

/-- C6 (witness): after add_text, add_newline, add_text, the buffer holds a
sealed line followed by a growable one; the theorem applied to the non-last
line proves it sealed. -/
theorem c6_witness :
    (⟨[from_double_half_char 'a' ' ' UnitColor.white], false, 3⟩ :
        MessageLine).is_growable = false ∧
      apply_ops (MessageBuffer.new 2 3 (from_double_half_char ' ' ' ' UnitColor.white))
          [MsgOp.text [Glyph.half 'a'] UnitColor.white, MsgOp.newline,
           MsgOp.text [Glyph.half 'b'] UnitColor.white] =
        some ⟨[⟨[from_double_half_char 'a' ' ' UnitColor.white], false, 3⟩,
          ⟨[from_double_half_char 'b' ' ' UnitColor.white], true, 3⟩], 2, 3,
          from_double_half_char ' ' ' ' UnitColor.white⟩ := by
  constructor
  · exact c6_growable_only_last 2 3 (from_double_half_char ' ' ' ' UnitColor.white)
      [MsgOp.text [Glyph.half 'a'] UnitColor.white, MsgOp.newline,
       MsgOp.text [Glyph.half 'b'] UnitColor.white]
      ⟨[⟨[from_double_half_char 'a' ' ' UnitColor.white], false, 3⟩,
        ⟨[from_double_half_char 'b' ' ' UnitColor.white], true, 3⟩], 2, 3,
        from_double_half_char ' ' ' ' UnitColor.white⟩
      (by decide) _ (by decide)
  · decide

/-- C7: add_newline with a growable last line seals it in place without
changing the line count; otherwise (no lines, or last line already sealed)
it appends one new, already-sealed, empty line, evicting the oldest line
first when the buffer is at max_line_count. -/
theorem c7_add_newline (buf : MessageBuffer) :
    (∀ last_line, buf.lines.getLast? = some last_line →
      last_line.is_growable = true →
      (add_newline buf).lines =
        buf.lines.dropLast ++ [{ last_line with is_growable := false }] ∧
      (add_newline buf).lines.length = buf.lines.length) ∧
    ((∀ last_line, buf.lines.getLast? = some last_line →
        last_line.is_growable = false) →
      (add_newline buf).lines =
        (if buf.lines.length = buf.max_line_count then buf.lines.drop 1
         else buf.lines) ++ [empty_ungrowable_line] ∧
      empty_ungrowable_line.is_growable = false ∧
      empty_ungrowable_line.units = []) := by
  constructor
  · intro last_line hlast hg
    have hne : buf.lines ≠ [] := by
      intro hcontra
      rw [hcontra] at hlast
      simp at hlast
    rw [add_newline.eq_def]
    simp only [hlast, hg, if_true]
    exact ⟨trivial, length_dropLast_concat_eq buf.lines _ hne⟩
  · intro hall
    rw [add_newline.eq_def]
    cases hlast : buf.lines.getLast? with
    | some last_line =>
      have hg := hall last_line hlast
      simp only [hlast, hg, Bool.false_eq_true, if_false]
      exact ⟨rfl, rfl, rfl⟩
    | none =>
      simp only [hlast]
      exact ⟨rfl, rfl, rfl⟩

/-- C7 (witness): sealing a concrete growable last line keeps the line count
at one, and add_newline on the empty buffer appends one sealed empty line. -/
theorem c7_witness :
    ((add_newline ⟨[⟨[], true, 3⟩], 5, 3,
        from_double_half_char ' ' ' ' UnitColor.white⟩).lines =
      [⟨[], false, 3⟩] ∧
      (add_newline ⟨[⟨[], true, 3⟩], 5, 3,
        from_double_half_char ' ' ' ' UnitColor.white⟩).lines.length = 1) ∧
    (add_newline (MessageBuffer.new 5 3
        (from_double_half_char ' ' ' ' UnitColor.white))).lines =
      [empty_ungrowable_line] := by
  constructor
  · have h := (c7_add_newline ⟨[⟨[], true, 3⟩], 5, 3,
      from_double_half_char ' ' ' ' UnitColor.white⟩).1 ⟨[], true, 3⟩ rfl rfl
    exact ⟨h.1.trans (by decide), h.2.trans (by decide)⟩
  · have h := (c7_add_newline (MessageBuffer.new 5 3
      (from_double_half_char ' ' ' ' UnitColor.white))).2
      (by intro last hl; simp [MessageBuffer.new] at hl)
    exact h.1.trans (by decide)

/-- C10: every sequence of add_text/add_newline calls on a buffer built with
max_message_length ≥ 1 completes without panicking, but with
max_message_length = 0 an add_text whose text segments into at least one
cell panics: the per-line eviction step pops from the empty cell deque and
unwraps the absent value. -/
theorem c10_capacity_zero_panic :
    (∀ (mlc mml : Nat) (b : DrawableUnit) (ops : List MsgOp),
      1 ≤ mml → (apply_ops (MessageBuffer.new mlc mml b) ops).isSome) ∧
    (∀ (mlc : Nat) (b : DrawableUnit) (s : List Glyph) (color : UnitColor),
      create_units_from s color ≠ [] →
      add_text (MessageBuffer.new mlc 0 b) s color = none) := by
  constructor
  · intro mlc mml b ops hmm
    exact apply_ops_isSome ops _ (buffer_inv_new mlc mml b)
      (by simpa [MessageBuffer.new] using hmm)
  · intro mlc b s color hne
    cases hu : create_units_from s color with
    | nil => exact absurd hu hne
    | cons u us =>
      simp only [add_text, MessageBuffer.new, List.getLast?_nil, hu]
      rw [append_message_capacity_zero]
      rfl

/-- C10 (witness): a one-character add_text succeeds with capacity 1 and
panics with capacity 0. -/
theorem c10_witness :
    (apply_ops (MessageBuffer.new 2 1 (from_double_half_char ' ' ' ' UnitColor.white))
        [MsgOp.text [Glyph.half 'a'] UnitColor.white]).isSome ∧
      add_text (MessageBuffer.new 2 0 (from_double_half_char ' ' ' ' UnitColor.white))
        [Glyph.half 'a'] UnitColor.white = none :=
  ⟨c10_capacity_zero_panic.1 2 1 (from_double_half_char ' ' ' ' UnitColor.white)
      [MsgOp.text [Glyph.half 'a'] UnitColor.white] (by decide),
    c10_capacity_zero_panic.2 2 (from_double_half_char ' ' ' ' UnitColor.white)
      [Glyph.half 'a'] UnitColor.white (by decide)⟩

/-- `div_ceil` (`src/message_buffer.rs` lines 271-273): the smallest integer
not below `x / y`. -/
def div_ceil (x y : Nat) : Nat :=
  x / y + if x % y = 0 then 0 else 1

/-- `max(div_ceil(line.len(), width), 1)`: the number of rows a line
consumes in `draw_message`. -/
def required_line_count (width len : Nat) : Nat :=
  max (div_ceil len width) 1

/-- Modelled from the spec: the geometry collaborator's rectangle type
(`geometry::Rectangle`) with inclusive corners, exposing
top/bottom/left/right/width; `draw_border_and_fill_inner` iterates
`top..bottom + 1`, so corners are inclusive and width counts both edges. -/
structure Rect where
  left : Nat
  top : Nat
  right : Nat
  bottom : Nat
deriving DecidableEq

/-- The rectangle's width in cells (inclusive corners). -/
def Rect.width (r : Rect) : Nat := r.right + 1 - r.left

/-- `Rectangle::from_corners`. -/
def Rect.from_corners (top_left bottom_right : Pair Nat) : Rect :=
  ⟨top_left.x, top_left.y, bottom_right.x, bottom_right.y⟩

/-- The interior computed in `draw_message` (`src/message_buffer.rs` lines
168-174): the region shrunk by one cell on each side. -/
def interior_of (region : Rect) : Rect :=
  Rect.from_corners ⟨region.left + 1, region.top + 1⟩
    ⟨region.right - 1, region.bottom - 1⟩

/-- `itertools`' `chunks(width)`: split a list into consecutive chunks of
`width` elements (the last chunk may be shorter).  `chunks` with width 0
panics in the source; the claims only use positive widths. -/
def chunks : Nat → List DrawableUnit → List (List DrawableUnit)
  | _, [] => []
  | 0, l => [l]
  | w + 1, a :: l => ((a :: l).take (w + 1)) :: chunks (w + 1) ((a :: l).drop (w + 1))
termination_by _ l => l.length
decreasing_by
  simp only [List.drop_succ_cons, List.length_cons, List.length_drop]
  omega

/-- The body of the message loop in `draw_message` (`src/message_buffer.rs`
lines 178-216), processing lines from most recent to oldest with the running
`current_end_row` cursor: break before drawing when the line's end row
(`current_end_row` itself) lies above the interior top; after drawing, break
when the next end row would be negative, else advance the cursor up by the
required row count.  Each processed line is recorded with its end row. -/
def process_message (width top : Nat) : Nat → List MessageLine → List (Nat × MessageLine)
  | _, [] => []
  | current_end_row, line :: rest =>
      let req := required_line_count width line.units.length
      if current_end_row < top then []
      else
        (current_end_row, line) ::
          (if current_end_row < req then []
           else process_message width top (current_end_row - req) rest)

/-- The row placement of one line's chunks (`draw_message` lines 191-198):
enumerate the chunks from `start_row` upward-to-downward, keep only rows not
above the interior top, and cast the kept rows back to `usize`. -/
def row_chunks_go (top : Nat) : Int → List (List DrawableUnit) →
    List (Nat × List DrawableUnit)
  | _, [] => []
  | row, c :: cs =>
      (if (top : Int) ≤ row then [(row.toNat, c)] else []) ++
        row_chunks_go top (row + 1) cs

/-- The rows at which one processed line's cells are drawn: its chunks of
`width` cells, the first chunk starting at
`current_end_row - required_line_count + 1`. -/
def row_chunks (width top current_end_row : Nat) (units : List DrawableUnit) :
    List (Nat × List DrawableUnit) :=
  row_chunks_go top
    ((current_end_row : Int) - required_line_count width units.length + 1)
    (chunks width units)

/-- The individual cell draws of one row (`draw_message` lines 200-207):
column `index + interior.left`, at the given row. -/
def cell_draws (left row : Nat) (units : List DrawableUnit) :
    List (Pair Nat × DrawableUnit) :=
  units.enum.map fun p => (⟨p.1 + left, row⟩, p.2)

/-- All cell draws the message loop performs for a buffer in a region, most
recent line first (the border/fill pass of `draw_message` precedes these). -/
def draw_message_draws (buf : MessageBuffer) (region : Rect) :
    List (Pair Nat × DrawableUnit) :=
  let interior := interior_of region
  (process_message interior.width interior.top interior.bottom
      buf.lines.reverse).flatMap
    fun p => (row_chunks interior.width interior.top p.1 p.2.units).flatMap
      fun rc => cell_draws interior.left rc.1 rc.2

/-- The total row count consumed by the `i` most recent lines. -/
def req_sum (width : Nat) (lines : List MessageLine) (i : Nat) : Nat :=
  ((lines.take i).map fun l => required_line_count width l.units.length).sum

/-- C3: in the message loop, after drawing each line the cursor advances
upward by that line's required row count — the i-th most recent line is
processed with end row `bottom - (sum of required rows of newer lines)` —
and every line whose end row still reaches the interior (end row ≥ top) is
processed, so no line that could still be visible is skipped; conversely
every processed line's end row lies at or below no higher than the interior
top, so iteration stops before any line that ends above the interior. -/
theorem c3_no_visible_line_skipped :
    (∀ (width top : Nat) (lines : List MessageLine) (current_end_row i : Nat)
        (line : MessageLine),
      lines.get? i = some line →
      req_sum width lines i + top ≤ current_end_row →
      (process_message width top current_end_row lines).get? i =
        some (current_end_row - req_sum width lines i, line)) ∧
    (∀ (width top current_end_row : Nat) (lines : List MessageLine)
        (p : Nat × MessageLine),
      p ∈ process_message width top current_end_row lines → top ≤ p.1) := by
  constructor
  · intro width top lines cur i line hget hsum
    induction i generalizing lines cur with
    | zero =>
      cases lines with
      | nil => simp at hget
      | cons l0 rest =>
        have hline : l0 = line := by simpa using hget
        subst hline
        simp only [req_sum, List.take_zero, List.map_nil, List.sum_nil] at hsum ⊢
        have hnlt : ¬ (cur < top) := by omega
        simp [process_message, hnlt]
    | succ i ih =>
      cases lines with
      | nil => simp at hget
      | cons l0 rest =>
        have hget' : rest.get? i = some line := by simpa using hget
        have hreq : req_sum width (l0 :: rest) (i + 1) =
            required_line_count width l0.units.length + req_sum width rest i := by
          simp [req_sum, List.take_succ_cons]
        rw [hreq] at hsum ⊢
        have hnlt : ¬ (cur < top) := by omega
        have hnreq : ¬ (cur < required_line_count width l0.units.length) := by
          omega
        simp only [process_message, hnlt, if_false, hnreq]
        have hrec := ih rest (cur - required_line_count width l0.units.length)
          hget' (by omega)
        simp only [List.get?_cons_succ]
        rw [hrec]
        simp only [Option.some.injEq, Prod.mk.injEq]
        exact ⟨by omega, trivial⟩
  · intro width top cur lines
    induction lines generalizing cur with
    | nil =>
      intro p hp
      simp [process_message] at hp
    | cons l0 rest ih =>
      intro p hp
      by_cases hlt : cur < top
      · simp [process_message, hlt] at hp
      · simp only [process_message, if_neg hlt, List.mem_cons] at hp
        rcases hp with rfl | hp
        · simp only []
          omega
        · by_cases hreq : cur < required_line_count width l0.units.length
          · rw [if_pos hreq] at hp
            simp at hp
          · rw [if_neg hreq] at hp
            exact ih _ p hp

/-- C3 (witness): with interior width 1, top row 1 and bottom row 5, a
2-cell line then a 1-cell line (most recent first) are both processed: the
second entry sits at end row 5 - 2 = 3, and the first processed entry's end
row 5 is not above the top. -/
theorem c3_witness :
    (process_message 1 1 5
        [⟨[from_double_half_char 'a' ' ' UnitColor.white,
           from_double_half_char 'b' ' ' UnitColor.white], false, 9⟩,
         ⟨[from_double_half_char 'c' ' ' UnitColor.white], false, 9⟩]).get? 1 =
      some (3, ⟨[from_double_half_char 'c' ' ' UnitColor.white], false, 9⟩) ∧
    (1 : Nat) ≤
      ((5 : Nat),
        (⟨[from_double_half_char 'a' ' ' UnitColor.white,
           from_double_half_char 'b' ' ' UnitColor.white], false, 9⟩ :
          MessageLine)).1 := by
  constructor
  · exact c3_no_visible_line_skipped.1 1 1
      [⟨[from_double_half_char 'a' ' ' UnitColor.white,
         from_double_half_char 'b' ' ' UnitColor.white], false, 9⟩,
       ⟨[from_double_half_char 'c' ' ' UnitColor.white], false, 9⟩] 5 1
      ⟨[from_double_half_char 'c' ' ' UnitColor.white], false, 9⟩
      (by decide) (by decide)
  · exact c3_no_visible_line_skipped.2 1 1 5
      [⟨[from_double_half_char 'a' ' ' UnitColor.white,
         from_double_half_char 'b' ' ' UnitColor.white], false, 9⟩,
       ⟨[from_double_half_char 'c' ' ' UnitColor.white], false, 9⟩]
      (5, ⟨[from_double_half_char 'a' ' ' UnitColor.white,
            from_double_half_char 'b' ' ' UnitColor.white], false, 9⟩)
      (by decide)

@[simp] theorem chunks_nil (w : Nat) : chunks w [] = [] := by
  cases w <;> rw [chunks.eq_def]

theorem chunks_cons (w : Nat) (a : DrawableUnit) (l : List DrawableUnit) :
    chunks (w + 1) (a :: l) =
      ((a :: l).take (w + 1)) :: chunks (w + 1) ((a :: l).drop (w + 1)) := by
  rw [chunks.eq_def]

theorem div_ceil_sub (n w : Nat) (hw : 0 < w) (hn : 0 < n) :
    div_ceil n w = div_ceil (n - w) w + 1 := by
  by_cases h : w ≤ n
  · have h1 : n / w = (n - w) / w + 1 := Nat.div_eq_sub_div hw h
    have h2 : n % w = (n - w) % w := Nat.mod_eq_sub_mod h
    by_cases hmod : (n - w) % w = 0
    · rw [div_ceil, div_ceil, h1, h2, if_pos hmod]
    · rw [div_ceil, div_ceil, h1, h2, if_neg hmod]
  · have hlt : n < w := by omega
    have h3 : n - w = 0 := by omega
    rw [div_ceil, div_ceil, Nat.div_eq_of_lt hlt, Nat.mod_eq_of_lt hlt, h3,
      if_neg (by omega), if_pos (by simp)]
    simp

theorem one_le_div_ceil (n w : Nat) (hw : 0 < w) (hn : 0 < n) :
    1 ≤ div_ceil n w := by
  by_cases h : n % w = 0
  · rw [div_ceil, if_pos h]
    have hwn : w ≤ n := Nat.le_of_dvd hn (Nat.dvd_of_mod_eq_zero h)
    have h1 := (Nat.one_le_div_iff hw).mpr hwn
    simpa using h1
  · rw [div_ceil, if_neg h]
    exact Nat.le_add_left 1 _

theorem chunks_length_eq (w : Nat) :
    ∀ (n : Nat) (l : List DrawableUnit), l.length ≤ n →
      (chunks (w + 1) l).length = div_ceil l.length (w + 1) := by
  intro n
  induction n with
  | zero =>
    intro l h
    have hl : l = [] := List.eq_nil_of_length_eq_zero (by omega)
    subst hl
    simp [div_ceil]
  | succ n ih =>
    intro l h
    cases l with
    | nil => simp [div_ceil]
    | cons a t =>
      rw [chunks_cons]
      simp only [List.length_cons]
      rw [ih ((a :: t).drop (w + 1))
        (by
          simp only [List.length_cons] at h
          simp only [List.length_drop, List.length_cons]
          omega)]
      rw [div_ceil_sub (t.length + 1) (w + 1) (by omega) (by omega)]
      have harg : ((a :: t).drop (w + 1)).length = t.length + 1 - (w + 1) := by
        simp [List.length_drop]
      rw [harg]

theorem row_chunks_go_map (top : Nat) :
    ∀ (cs : List (List DrawableUnit)) (start : Int), (top : Int) ≤ start →
      (row_chunks_go top start cs).map Prod.fst =
        (List.range cs.length).map (fun k => start.toNat + k) := by
  intro cs
  induction cs with
  | nil =>
    intro start h
    simp [row_chunks_go]
  | cons c cs ih =>
    intro start h
    simp only [row_chunks_go, if_pos h, List.singleton_append, List.map_cons,
      List.length_cons]
    rw [ih (start + 1) (by omega)]
    rw [List.range_succ_eq_map]
    simp only [List.map_cons, List.map_map, Nat.add_zero]
    congr 1
    congr 1
    funext k
    simp only [Function.comp_apply]
    omega

/-- C4: a non-empty line drawn without clipping occupies exactly the
consecutive rows `[current_end_row - rows_needed + 1, current_end_row]`,
bottom-anchored at `current_end_row`, where
`rows_needed = max(div_ceil(line_length, width), 1)`. -/
theorem c4_line_row_span (width top current_end_row : Nat)
    (units : List DrawableUnit) (hw : 0 < width) (hlen : 0 < units.length)
    (hfit : top + required_line_count width units.length ≤ current_end_row + 1) :
    (row_chunks width top current_end_row units).map Prod.fst =
      (List.range (required_line_count width units.length)).map
        (fun k => current_end_row + 1 - required_line_count width units.length + k) ∧
    required_line_count width units.length = max (div_ceil units.length width) 1 := by
  refine ⟨?_, rfl⟩
  obtain ⟨w, rfl⟩ : ∃ w, width = w + 1 := ⟨width - 1, by omega⟩
  rw [row_chunks]
  have hreq : required_line_count (w + 1) units.length =
      div_ceil units.length (w + 1) := by
    rw [required_line_count]
    exact Nat.max_eq_left (one_le_div_ceil units.length (w + 1) (by omega) hlen)
  have hchunks : (chunks (w + 1) units).length = div_ceil units.length (w + 1) :=
    chunks_length_eq w units.length units (Nat.le_refl _)
  have hstart : (top : Int) ≤
      (current_end_row : Int) - required_line_count (w + 1) units.length + 1 := by
    omega
  rw [row_chunks_go_map top (chunks (w + 1) units) _ hstart]
  rw [hchunks, ← hreq]
  have htonat : (((current_end_row : Int) -
      required_line_count (w + 1) units.length + 1)).toNat =
      current_end_row + 1 - required_line_count (w + 1) units.length := by
    omega
  rw [htonat]

/-- C4 (witness): a 12-cell line in a width-5 interior with bottom row 12
and top row 1 occupies exactly the 3 rows 10, 11, 12 and
`rows_needed = ceil(12/5) = 3`. -/
theorem c4_witness :
    (row_chunks 5 1 12
        (List.replicate 12 (from_double_half_char 'a' ' ' UnitColor.white))).map
        Prod.fst = [10, 11, 12] ∧
      required_line_count 5
        (List.replicate 12 (from_double_half_char 'a' ' ' UnitColor.white)).length
        = 3 := by
  have h := c4_line_row_span 5 1 12
    (List.replicate 12 (from_double_half_char 'a' ' ' UnitColor.white))
    (by decide) (by decide) (by decide)
  constructor
  · exact h.1.trans (by decide)
  · exact h.2.trans (by decide)
